import Mathlib

/-!
Verification of the flake8-simplify core (src/flake8_simplify.py): the AST data
model needed by the two pattern predicates, the predicates themselves
(`_get_duplicated_isinstance_calls` for SIM101 and `_get_not_equal_calls` for
SIM201), and the pre-order visitor that accumulates findings.
-/

namespace FlakeSimplify

/-- Boolean operators of `ast.BoolOp` (`ast.Or`, `ast.And`). -/
inductive BoolOpKind : Type where
  | bOr
  | bAnd
  deriving DecidableEq, Repr

/-- Unary operators of `ast.UnaryOp` (`ast.Not`, `ast.USub`, `ast.UAdd`, `ast.Invert`). -/
inductive UnaryOpKind : Type where
  | nottOp
  | uSub
  | uAdd
  | invert
  deriving DecidableEq, Repr

/-- Comparison operators of `ast.Compare` (`ast.Eq`, `ast.NotEq`, `ast.Lt`, `ast.Gt`, `ast.Is`, `ast.In`). -/
inductive CmpOpKind : Type where
  | eq
  | notEq
  | lt
  | gt
  | isOp
  | inOp
  deriving DecidableEq, Repr

/-- Expression nodes of the Python `ast` module that the checker's code can
meet: every constructor carries the node's `lineno` and `col_offset`.
`numConst` stands for a numeric literal, `attr` for `ast.Attribute`. -/
inductive Expr : Type where
  | name (lineno colOffset : Nat) (id : String)
  | numConst (lineno colOffset : Nat) (value : Int)
  | attr (lineno colOffset : Nat) (value : Expr) (field : String)
  | call (lineno colOffset : Nat) (func : Expr) (args : List Expr)
  | boolOp (lineno colOffset : Nat) (op : BoolOpKind) (values : List Expr)
  | unaryOp (lineno colOffset : Nat) (op : UnaryOpKind) (operand : Expr)
  | compare (lineno colOffset : Nat) (left : Expr) (ops : List CmpOpKind)
      (comparators : List Expr)

def boolOpText : BoolOpKind → String
  | .bOr => " or "
  | .bAnd => " and "

def unaryOpText : UnaryOpKind → String
  | .nottOp => "not "
  | .uSub => "-"
  | .uAdd => "+"
  | .invert => "~"

def cmpOpText : CmpOpKind → String
  | .eq => "=="
  | .notEq => "!="
  | .lt => "<"
  | .gt => ">"
  | .isOp => "is"
  | .inOp => "in"

mutual

/-- Model of the external source renderer `astor.to_source(node).strip()`:
a deterministic recursive pretty-printer returning the canonical source text
of an expression with surrounding whitespace trimmed (the spec treats the
renderer as a black-box collaborator with exactly this contract). -/
def to_source : Expr → String
  | .name _ _ id => id
  | .numConst _ _ v => toString v
  | .attr _ _ value field => to_source value ++ "." ++ field
  | .call _ _ func args => to_source func ++ "(" ++ sourceArgs args ++ ")"
  | .boolOp _ _ op values => sourceJoin (boolOpText op) values
  | .unaryOp _ _ op operand => unaryOpText op ++ to_source operand
  | .compare _ _ left ops comparators => to_source left ++ sourceCmps ops comparators

/-- Renders a comma-separated argument list. -/
def sourceArgs : List Expr → String
  | [] => ""
  | [e] => to_source e
  | e :: es => to_source e ++ ", " ++ sourceArgs es

/-- Renders operands joined by a boolean-operator separator. -/
def sourceJoin (sep : String) : List Expr → String
  | [] => ""
  | [e] => to_source e
  | e :: es => to_source e ++ sep ++ sourceJoin sep es

/-- Renders the operator/comparator tail of a comparison. -/
def sourceCmps : List CmpOpKind → List Expr → String
  | op :: ops, e :: es => " " ++ cmpOpText op ++ " " ++ to_source e ++ sourceCmps ops es
  | _, _ => ""

end

/-- The SIM101 message template of the source, with `var` substituted. -/
def SIM101 (var : String) : String :=
  "SIM101 Multiple isinstance-calls which can be merged into a single "
    ++ "call for variable '" ++ var ++ "'"

/-- The SIM201 message template of the source, with `left` and `right` substituted. -/
def SIM201 (left right : String) : String :=
  "SIM201 Used 'not " ++ left ++ " == " ++ right ++ "' instead of '"
    ++ left ++ " != " ++ right ++ "'"

/-- One reported problem: `(line, col, message)`, as in the source's
`List[Tuple[int, int, str]]`. -/
abbrev Finding := Nat × Nat × String

/-- `counter[key] += 1` on a `defaultdict(int)` modelled as an insertion-ordered
association list: an existing entry is bumped in place, a new key is appended. -/
def incr (counter : List (String × Nat)) (key : String) : List (String × Nat) :=
  match counter with
  | [] => [(key, 1)]
  | (k, v) :: rest => if k = key then (k, v + 1) :: rest else (k, v) :: incr rest key

/-- The loop body of `_get_duplicated_isinstance_call_by_node`: skip the operand
unless it is a call with exactly two arguments whose rendered callee text is
`isinstance`; otherwise count the rendered first argument. -/
def isinstanceStep (counter : List (String × Nat)) (call : Expr) : List (String × Nat) :=
  match call with
  | .call _ _ func args =>
      match args with
      | [arg0, _] =>
          if to_source func = "isinstance" then incr counter (to_source arg0)
          else counter
      | _ => counter
  | _ => counter

/-- `_get_duplicated_isinstance_call_by_node(node)`: fold the counter over the
direct operands and keep the keys whose count exceeds 1 (in counter order). -/
def _get_duplicated_isinstance_call_by_node (node : Expr) : List String :=
  match node with
  | .boolOp _ _ _ values =>
      let counter := values.foldl isinstanceStep []
      (counter.filter (fun p => p.2 > 1)).map Prod.fst
  | _ => []

/-- `_get_duplicated_isinstance_calls(node)`: empty unless the operator is
`Or`; otherwise one finding per duplicated variable, at the node's position. -/
def _get_duplicated_isinstance_calls (node : Expr) : List Finding :=
  match node with
  | .boolOp lineno colOffset op _ =>
      if op ≠ BoolOpKind.bOr then []
      else
        (_get_duplicated_isinstance_call_by_node node).map
          (fun var => (lineno, colOffset, SIM101 var))
  | _ => []

/-- `_get_not_equal_calls(node)`: empty unless the operator is `Not`, the
operand a comparison with exactly one operator, and that operator `Eq`; then
one finding at the node's position.  The source then reads
`comparison.comparators[0]` unconditionally, so a comparison with no
comparators would raise `IndexError`: that exception is modelled as `none`. -/
def _get_not_equal_calls (node : Expr) : Option (List Finding) :=
  match node with
  | .unaryOp lineno colOffset op operand =>
      match op, operand with
      | .nottOp, .compare _ _ left ops comparators =>
          match ops with
          | [CmpOpKind.eq] =>
              match comparators with
              | right :: _ =>
                  some [(lineno, colOffset, SIM201 (to_source left) (to_source right))]
              | [] => none
          | _ => some []
      | _, _ => some []
  | _ => some []

/-- The node's `lineno`. -/
def lineno : Expr → Nat
  | .name l _ _ => l
  | .numConst l _ _ => l
  | .attr l _ _ _ => l
  | .call l _ _ _ => l
  | .boolOp l _ _ _ => l
  | .unaryOp l _ _ _ => l
  | .compare l _ _ _ _ => l

/-- The node's `col_offset`. -/
def colOffset : Expr → Nat
  | .name _ c _ => c
  | .numConst _ c _ => c
  | .attr _ c _ _ => c
  | .call _ c _ _ => c
  | .boolOp _ c _ _ => c
  | .unaryOp _ c _ _ => c
  | .compare _ c _ _ _ => c

/-- The child expressions a `generic_visit` descends into, in field order. -/
def childrenOf : Expr → List Expr
  | .name _ _ _ => []
  | .numConst _ _ _ => []
  | .attr _ _ value _ => [value]
  | .call _ _ func args => func :: args
  | .boolOp _ _ _ values => values
  | .unaryOp _ _ _ operand => [operand]
  | .compare _ _ left _ comparators => left :: comparators

/-- What the `Visitor` contributes at one node before descending: `visit_BoolOp`
runs the SIM101 predicate, `visit_UnaryOp` the SIM201 predicate, every other
node kind contributes nothing. -/
def dispatch : Expr → Option (List Finding)
  | .boolOp l c op values => some (_get_duplicated_isinstance_calls (.boolOp l c op values))
  | .unaryOp l c op operand => _get_not_equal_calls (.unaryOp l c op operand)
  | _ => some []

mutual

/-- `Visitor().visit(node)`: depth-first pre-order accumulation of findings —
the predicate result of the node itself, then the findings of its children in
order.  A raised exception anywhere aborts the traversal (`none`). -/
def visit : Expr → Option (List Finding)
  | .name _ _ _ => some []
  | .numConst _ _ _ => some []
  | .attr _ _ value _ => visit value
  | .call _ _ func args => do
      pure ((← visit func) ++ (← visitList args))
  | .boolOp l c op values => do
      pure (_get_duplicated_isinstance_calls (.boolOp l c op values) ++ (← visitList values))
  | .unaryOp l c op operand => do
      let here ← _get_not_equal_calls (.unaryOp l c op operand)
      pure (here ++ (← visit operand))
  | .compare _ _ left _ comparators => do
      pure ((← visit left) ++ (← visitList comparators))

/-- Visits a list of sibling nodes left to right. -/
def visitList : List Expr → Option (List Finding)
  | [] => some []
  | e :: es => do
      pure ((← visit e) ++ (← visitList es))

end

mutual

/-- The pre-order list of all nodes of a subtree (the node itself first). -/
def subnodes : Expr → List Expr
  | .name l c id => [.name l c id]
  | .numConst l c v => [.numConst l c v]
  | .attr l c value field => .attr l c value field :: subnodes value
  | .call l c func args => .call l c func args :: (subnodes func ++ subnodesList args)
  | .boolOp l c op values => .boolOp l c op values :: subnodesList values
  | .unaryOp l c op operand => .unaryOp l c op operand :: subnodes operand
  | .compare l c left ops comparators =>
      .compare l c left ops comparators :: (subnodes left ++ subnodesList comparators)

/-- Pre-order node lists of a forest, concatenated. -/
def subnodesList : List Expr → List Expr
  | [] => []
  | e :: es => subnodes e ++ subnodesList es

end

mutual

/-- Structural well-formedness of a tree as the external parser guarantees it:
a comparison carries as many comparators as operators (and at least one), a
boolean operation has at least two operands, and all children are well-formed. -/
def wellFormed : Expr → Bool
  | .name _ _ _ => true
  | .numConst _ _ _ => true
  | .attr _ _ value _ => wellFormed value
  | .call _ _ func args => wellFormed func && wellFormedList args
  | .boolOp _ _ _ values => decide (2 ≤ values.length) && wellFormedList values
  | .unaryOp _ _ _ operand => wellFormed operand
  | .compare _ _ left ops comparators =>
      decide (ops.length = comparators.length) && decide (1 ≤ ops.length)
        && wellFormed left && wellFormedList comparators

/-- All members of the list are well-formed. -/
def wellFormedList : List Expr → Bool
  | [] => true
  | e :: es => wellFormed e && wellFormedList es

end

/-- The counting key an operand contributes to the SIM101 counter, if any:
`some` of the rendered first argument exactly when the operand is a call with
two arguments whose rendered callee text is `isinstance`. -/
def keyOf : Expr → Option String
  | .call _ _ func args =>
      match args with
      | [arg0, _] =>
          if to_source func = "isinstance" then some (to_source arg0) else none
      | _ => none
  | _ => none

/-- The keys contributed by a list of operands, in operand order. -/
def occKeys (values : List Expr) : List String :=
  values.filterMap keyOf

/-- The distinct members of a list, each at its first occurrence (the
iteration order of a Python dict keyed by these strings). -/
def firstOcc : List String → List String
  | [] => []
  | k :: ks => k :: (firstOcc ks).filter (fun k' => k' ≠ k)

/-- A two-argument isinstance call rendered as `isinstance(v, t)` from plain
names, convenient for concrete trees. -/
def isin (l c : Nat) (v t : String) : Expr :=
  .call l c (.name l c "isinstance") [.name l (c + 11) v, .name l (c + 11 + v.length + 2) t]

/-- The inner or-node of the nesting test case: `isinstance(a, int) or
isinstance(a, float)`, at position (1, 1). -/
def innerOrNode : Expr :=
  .boolOp 1 1 .bOr [isin 1 2 "a" "int", isin 1 25 "a" "float"]

/-- The nesting test case: an outer or-node at (1, 0) whose direct operands
are the inner or-node and two isinstance calls on `b`. -/
def nestedOrExample : Expr :=
  .boolOp 1 0 .bOr [innerOrNode, isin 1 50 "b" "int", isin 1 72 "b" "str"]

/-! ### Counter lemmas -/

theorem isinstanceStep_eq (counter : List (String × Nat)) (call : Expr) :
    isinstanceStep counter call
      = match keyOf call with
        | some k => incr counter k
        | none => counter := by
  cases call with
  | call l c func args =>
      rcases args with _ | ⟨a0, _ | ⟨a1, _ | rest⟩⟩
      · rfl
      · rfl
      · simp only [isinstanceStep, keyOf]
        split <;> rfl
      · rfl
  | name l c id => rfl
  | numConst l c v => rfl
  | attr l c value field => rfl
  | boolOp l c op values => rfl
  | unaryOp l c op operand => rfl
  | compare l c left ops comparators => rfl

theorem foldl_isinstanceStep (values : List Expr) (counter : List (String × Nat)) :
    values.foldl isinstanceStep counter = (occKeys values).foldl incr counter := by
  induction values generalizing counter with
  | nil => rfl
  | cons v vs ih =>
      simp only [List.foldl_cons, occKeys, List.filterMap_cons]
      rw [isinstanceStep_eq]
      cases h : keyOf v with
      | none => simpa [occKeys] using ih counter
      | some k => simpa [occKeys] using ih (incr counter k)

theorem mem_firstOcc {k : String} : ∀ ks : List String, k ∈ firstOcc ks ↔ k ∈ ks := by
  intro ks
  induction ks with
  | nil => simp [firstOcc]
  | cons a ks ih =>
      by_cases hk : k = a
      · simp [firstOcc, hk]
      · simp [firstOcc, hk, List.mem_filter, ih]

theorem nodup_firstOcc : ∀ ks : List String, (firstOcc ks).Nodup := by
  intro ks
  induction ks with
  | nil => simp [firstOcc]
  | cons a ks ih =>
      refine List.nodup_cons.mpr ⟨?_, List.Nodup.filter _ ih⟩
      intro hmem
      have := (List.mem_filter.mp hmem).2
      simp at this

theorem firstOcc_concat (ks : List String) (k : String) :
    firstOcc (ks ++ [k]) = if k ∈ ks then firstOcc ks else firstOcc ks ++ [k] := by
  induction ks with
  | nil => simp [firstOcc]
  | cons a ks ih =>
      have hstep : firstOcc ((a :: ks) ++ [k])
          = a :: (firstOcc (ks ++ [k])).filter (fun k' => k' ≠ a) := rfl
      rw [hstep, ih]
      by_cases hk : k ∈ ks
      · simp [firstOcc, hk, List.mem_cons_of_mem a hk]
      · by_cases hka : k = a
        · subst hka
          simp [firstOcc, hk, List.filter_append]
        · have hnotin : ¬ k ∈ a :: ks := by simp [hka, hk]
          simp [firstOcc, hk, hnotin, List.filter_append, hka]

theorem incr_map_of_nodup (l : List String) (g : String → Nat) (k : String)
    (hnd : l.Nodup) :
    incr (l.map (fun k' => (k', g k'))) k
      = if k ∈ l then l.map (fun k' => (k', if k' = k then g k' + 1 else g k'))
        else l.map (fun k' => (k', g k')) ++ [(k, 1)] := by
  induction l with
  | nil => simp [incr]
  | cons a l ih =>
      obtain ⟨ha, hl⟩ := List.nodup_cons.mp hnd
      by_cases hak : a = k
      · subst hak
        have hmapeq : l.map (fun k' => (k', if k' = a then g k' + 1 else g k'))
            = l.map (fun k' => (k', g k')) := by
          apply List.map_congr_left
          intro x hx
          have : x ≠ a := fun hxa => ha (hxa ▸ hx)
          simp [this]
        simp [incr, hmapeq]
      · have hne : a ≠ k := hak
        have hka : ¬ k = a := fun h => hak h.symm
        by_cases hkl : k ∈ l
        · have : k ∈ a :: l := List.mem_cons_of_mem a hkl
          simp [incr, hne, ih hl, hkl, this, hak]
        · have : ¬ k ∈ a :: l := by simp [hka, hkl]
          simp [incr, hne, ih hl, hkl, this, hak]

theorem foldl_incr_eq (ks : List String) :
    ks.foldl incr [] = (firstOcc ks).map (fun k => (k, ks.count k)) := by
  induction ks using List.reverseRecOn with
  | nil => rfl
  | append_singleton ks k ih =>
      rw [List.foldl_append, List.foldl_cons, List.foldl_nil, ih,
        incr_map_of_nodup _ _ _ (nodup_firstOcc ks), firstOcc_concat]
      by_cases hk : k ∈ ks
      · have hk' : k ∈ firstOcc ks := (mem_firstOcc ks).mpr hk
        simp only [hk', if_true, hk, if_true]
        apply List.map_congr_left
        intro x hx
        by_cases hxk : x = k
        · subst hxk
          simp [List.count_append]
        · simp [List.count_append, hxk, Ne.symm hxk]
      · have hk' : ¬ k ∈ firstOcc ks := fun h => hk ((mem_firstOcc ks).mp h)
        simp only [hk', if_false, hk, if_false, List.map_append, List.map_cons,
          List.map_nil]
        congr 1
        · apply List.map_congr_left
          intro x hx
          have hxks : x ∈ ks := (mem_firstOcc ks).mp hx
          have hxk : x ≠ k := fun hxk => hk (hxk ▸ hxks)
          simp [List.count_append, hxk, Ne.symm hxk]
        · simp [List.count_append, List.count_eq_zero.mpr hk]

theorem count_occKeys (values : List Expr) (k : String) :
    (occKeys values).count k = values.countP (fun e => keyOf e = some k) := by
  induction values with
  | nil => rfl
  | cons v vs ih =>
      simp only [occKeys, List.filterMap_cons] at ih ⊢
      rw [List.countP_cons]
      cases h : keyOf v with
      | none => simp [h, ih]
      | some k' =>
          by_cases hk : k' = k
          · subst hk
            simp [h, ih, List.count_cons]
          · have hk2 : ¬ k = k' := fun hh => hk hh.symm
            simp [h, ih, List.count_cons, hk, hk2]

/-- The SIM101 finding list of an or-node, written as a filter over the keys in
first-occurrence order: the counter's keys appear in insertion order and each
carries the total occurrence count of its key. -/
theorem duplicated_isinstance_calls_eq (l c : Nat) (values : List Expr) :
    _get_duplicated_isinstance_calls (.boolOp l c .bOr values)
      = ((firstOcc (occKeys values)).filter
            (fun k => 1 < (occKeys values).count k)).map
          (fun k => (l, c, SIM101 k)) := by
  simp only [_get_duplicated_isinstance_calls, _get_duplicated_isinstance_call_by_node]
  rw [if_neg (by simp)]
  rw [foldl_isinstanceStep, foldl_incr_eq, List.filter_map, List.map_map, List.map_map]
  congr 1

theorem SIM101_inj {k k' : String} (h : SIM101 k = SIM101 k') : k = k' := by
  have hd := congrArg String.data h
  simp only [SIM101, String.data_append] at hd
  exact String.ext (List.append_cancel_left (List.append_cancel_right hd))

theorem countP_eq_le_one_of_nodup {α : Type} [DecidableEq α] :
    ∀ {l : List α}, l.Nodup → ∀ k : α, l.countP (fun x => x = k) ≤ 1 := by
  intro l
  induction l with
  | nil => intro _ k; simp
  | cons a l ih =>
      intro h k
      obtain ⟨ha, hl⟩ := List.nodup_cons.mp h
      rw [List.countP_cons]
      by_cases hak : a = k
      · subst hak
        have hz : l.countP (fun x => x = a) = 0 := by
          rw [List.countP_eq_zero]
          intro x hx
          simp only [decide_eq_true_eq]
          exact fun hxa => ha (hxa ▸ hx)
        simp [hz]
      · simp [hak, ih hl k]

/-! ### Claim theorems for the SIM101 predicate -/

/-- C10: when one or-node contains several distinct duplicated variables,
the findings come out in the order of each variable's first occurrence among
the direct operands (counter insertion order), all at the node's position. -/
theorem sim101_insertion_order (l c : Nat) (values : List Expr) :
    _get_duplicated_isinstance_calls (.boolOp l c .bOr values)
      = ((firstOcc (occKeys values)).filter
            (fun k => 1 < (occKeys values).count k)).map
          (fun k => (l, c, SIM101 k)) :=
  duplicated_isinstance_calls_eq l c values

/-- C1: on a boolean-or node, a direct operand is counted exactly when it is a
two-argument call whose rendered callee text is `isinstance` (that is, when
`keyOf` yields its rendered first argument), and one SIM101 finding at the
node's own position is emitted for exactly the keys occurring more than once —
at most one finding per key. -/
theorem sim101_dup_isinstance_correct (l c : Nat) (values : List Expr) :
    (∀ k : String,
        ((l, c, SIM101 k) ∈ _get_duplicated_isinstance_calls (.boolOp l c .bOr values) ↔
          1 < values.countP (fun e => keyOf e = some k))
        ∧ (_get_duplicated_isinstance_calls (.boolOp l c .bOr values)).countP
            (fun f => f = (l, c, SIM101 k)) ≤ 1)
    ∧ ∀ f ∈ _get_duplicated_isinstance_calls (.boolOp l c .bOr values),
        ∃ k, f = (l, c, SIM101 k) ∧ 1 < values.countP (fun e => keyOf e = some k) := by
  rw [duplicated_isinstance_calls_eq]
  constructor
  · intro k
    constructor
    · rw [List.mem_map]
      constructor
      · rintro ⟨k', hk', heq⟩
        have hkk : k' = k := SIM101_inj (by
          have := congrArg (fun t : Finding => t.2.2) heq
          simpa using this)
        subst hkk
        have := (List.mem_filter.mp hk').2
        rw [← count_occKeys]
        simpa using this
      · intro hcount
        refine ⟨k, ?_, rfl⟩
        rw [List.mem_filter]
        have hc : 1 < (occKeys values).count k := by
          rw [count_occKeys]; exact hcount
        have hmem : k ∈ occKeys values := by
          rw [← List.count_pos_iff]; omega
        exact ⟨(mem_firstOcc _).mpr hmem, by simpa using hc⟩
    · rw [List.countP_map]
      have hle := countP_eq_le_one_of_nodup
        ((nodup_firstOcc (occKeys values)).filter
          (fun k => decide (1 < (occKeys values).count k))) k
      refine le_trans (le_of_eq ?_) hle
      apply List.countP_congr
      intro x hx
      by_cases hxk : x = k
      · subst hxk; simp
      · have hne : ¬ ((l, c, SIM101 x) : Finding) = (l, c, SIM101 k) := by
          intro hc
          exact hxk (SIM101_inj (by
            have := congrArg (fun t : Finding => t.2.2) hc
            simpa using this))
        simp [Function.comp, hne, hxk]
  · intro f hf
    rw [List.mem_map] at hf
    obtain ⟨k, hk, rfl⟩ := hf
    refine ⟨k, rfl, ?_⟩
    have := (List.mem_filter.mp hk).2
    rw [← count_occKeys]
    simpa using this

/-- Witness for C1 at a concrete or-node with operands
`isinstance(a, int) or isinstance(a, float) or isinstance(b, str)`. -/
theorem sim101_dup_isinstance_correct_witness :
    ((1, 0, SIM101 "a")
        ∈ _get_duplicated_isinstance_calls (.boolOp 1 0 .bOr
            [isin 1 0 "a" "int", isin 1 22 "a" "float", isin 1 46 "b" "str"]))
    ∧ ∃ k, ((1, 0, SIM101 "a") : Finding) = (1, 0, SIM101 k)
        ∧ 1 < List.countP (fun e => keyOf e = some k)
            [isin 1 0 "a" "int", isin 1 22 "a" "float", isin 1 46 "b" "str"] := by
  have h := sim101_dup_isinstance_correct 1 0
    [isin 1 0 "a" "int", isin 1 22 "a" "float", isin 1 46 "b" "str"]
  have hm := ((h.1 "a").1).mpr (by decide)
  exact ⟨hm, h.2 _ hm⟩

/-- C5: the SIM101 predicate is a no-op on any boolean operation whose
operator is not logical OR, whatever the operands are. -/
theorem sim101_non_or_boolop_empty (l c : Nat) (op : BoolOpKind) (values : List Expr)
    (h : op ≠ BoolOpKind.bOr) :
    _get_duplicated_isinstance_calls (.boolOp l c op values) = [] := by
  simp [_get_duplicated_isinstance_calls, h]

/-- Witness for C5: an and-chain of two isinstance calls on the same variable
yields no finding. -/
theorem sim101_non_or_boolop_empty_witness :
    _get_duplicated_isinstance_calls (.boolOp 1 0 .bAnd
        [isin 1 0 "a" "int", isin 1 22 "a" "str"]) = [] :=
  sim101_non_or_boolop_empty 1 0 .bAnd [isin 1 0 "a" "int", isin 1 22 "a" "str"]
    (by decide)

/-- C7: an operand that is a call rendered `isinstance` but with an arity
other than two contributes nothing: dropping it from the operand list leaves
the findings unchanged. -/
theorem sim101_wrong_arity_not_counted (l c fl fc : Nat) (func : Expr)
    (args : List Expr) (vs1 vs2 : List Expr)
    (_hfunc : to_source func = "isinstance") (hlen : args.length ≠ 2) :
    _get_duplicated_isinstance_calls
        (.boolOp l c .bOr (vs1 ++ Expr.call fl fc func args :: vs2))
      = _get_duplicated_isinstance_calls (.boolOp l c .bOr (vs1 ++ vs2)) := by
  have hkey : keyOf (Expr.call fl fc func args) = none := by
    rcases args with _ | ⟨a0, _ | ⟨a1, _ | rest⟩⟩
    · rfl
    · rfl
    · exact absurd rfl hlen
    · rfl
  have hocc : occKeys (vs1 ++ Expr.call fl fc func args :: vs2)
      = occKeys (vs1 ++ vs2) := by
    simp [occKeys, List.filterMap_append, List.filterMap_cons, hkey]
  rw [duplicated_isinstance_calls_eq, duplicated_isinstance_calls_eq, hocc]

/-- Witness for C7: a three-argument `isinstance(a, str, x)` between two
counted operands changes nothing. -/
theorem sim101_wrong_arity_not_counted_witness :
    _get_duplicated_isinstance_calls (.boolOp 1 0 .bOr
        ([isin 1 0 "a" "int"]
          ++ Expr.call 1 22 (.name 1 22 "isinstance")
              [.name 1 33 "a", .name 1 36 "str", .name 1 41 "x"]
          :: [isin 1 44 "a" "float"]))
      = _get_duplicated_isinstance_calls (.boolOp 1 0 .bOr
          ([isin 1 0 "a" "int"] ++ [isin 1 44 "a" "float"])) :=
  sim101_wrong_arity_not_counted 1 0 1 22 (.name 1 22 "isinstance")
    [.name 1 33 "a", .name 1 36 "str", .name 1 41 "x"]
    [isin 1 0 "a" "int"] [isin 1 44 "a" "float"] rfl (by decide)

/-- C8: three isinstance operands with the same rendered first-argument text
yield exactly one finding for that text — one per duplicated variable, not one
per excess occurrence. -/
theorem sim101_three_way_single_finding (l c l1 c1 l2 c2 l3 c3 : Nat)
    (f1 a1 t1 f2 a2 t2 f3 a3 t3 : Expr) (k : String)
    (h1 : to_source f1 = "isinstance") (h2 : to_source f2 = "isinstance")
    (h3 : to_source f3 = "isinstance")
    (ha1 : to_source a1 = k) (ha2 : to_source a2 = k) (ha3 : to_source a3 = k) :
    _get_duplicated_isinstance_calls (.boolOp l c .bOr
        [.call l1 c1 f1 [a1, t1], .call l2 c2 f2 [a2, t2], .call l3 c3 f3 [a3, t3]])
      = [(l, c, SIM101 k)] := by
  rw [duplicated_isinstance_calls_eq]
  have hocc : occKeys
      [Expr.call l1 c1 f1 [a1, t1], .call l2 c2 f2 [a2, t2], .call l3 c3 f3 [a3, t3]]
      = [k, k, k] := by
    simp [occKeys, keyOf, h1, h2, h3, ha1, ha2, ha3]
  rw [hocc]
  have hfo : firstOcc [k, k, k] = [k] := by simp [firstOcc]
  rw [hfo]
  simp [List.count_cons]

/-- Witness for C8 at `isinstance(a, int) or isinstance(a, float) or
isinstance(a, str)`. -/
theorem sim101_three_way_single_finding_witness :
    _get_duplicated_isinstance_calls (.boolOp 1 0 .bOr
        [isin 1 0 "a" "int", isin 1 22 "a" "float", isin 1 46 "a" "str"])
      = [(1, 0, SIM101 "a")] :=
  sim101_three_way_single_finding 1 0 1 0 1 22 1 46
    (.name 1 0 "isinstance") (.name 1 11 "a") (.name 1 14 "int")
    (.name 1 22 "isinstance") (.name 1 33 "a") (.name 1 36 "float")
    (.name 1 46 "isinstance") (.name 1 57 "a") (.name 1 60 "str")
    "a" rfl rfl rfl rfl rfl rfl

/-! ### Claim theorems for the SIM201 predicate -/

/-- C2: the negated-equality predicate produces a finding exactly when the
unary operator is `Not` and the operand is a comparison with exactly one
operator, that operator being `Eq`; in that case the (single) finding sits at
the negation node's position and its message is the SIM201 template filled
with the rendered left operand and first comparator. -/
theorem sim201_not_eq_correct (l c : Nat) (op : UnaryOpKind) (operand : Expr) :
    ((∃ fs, _get_not_equal_calls (.unaryOp l c op operand) = some fs ∧ fs ≠ []) ↔
        op = UnaryOpKind.nottOp ∧ ∃ cl cc left right rest,
          operand = Expr.compare cl cc left [CmpOpKind.eq] (right :: rest))
    ∧ ∀ cl cc left right rest, op = UnaryOpKind.nottOp →
        operand = Expr.compare cl cc left [CmpOpKind.eq] (right :: rest) →
        _get_not_equal_calls (.unaryOp l c op operand)
          = some [(l, c, SIM201 (to_source left) (to_source right))] := by
  constructor
  · constructor
    · rintro ⟨fs, hfs, hne⟩
      cases op with
      | nottOp =>
          cases operand with
          | compare cl cc left ops comparators =>
              rcases ops with _ | ⟨o, tl⟩
              · exact absurd (Option.some.inj hfs).symm hne
              · cases o with
                | eq =>
                    rcases tl with _ | ⟨o2, tl2⟩
                    · rcases comparators with _ | ⟨r, rs⟩
                      · exact Option.noConfusion hfs
                      · exact ⟨rfl, cl, cc, left, r, rs, rfl⟩
                    · exact absurd (Option.some.inj hfs).symm hne
                | notEq => exact absurd (Option.some.inj hfs).symm hne
                | lt => exact absurd (Option.some.inj hfs).symm hne
                | gt => exact absurd (Option.some.inj hfs).symm hne
                | isOp => exact absurd (Option.some.inj hfs).symm hne
                | inOp => exact absurd (Option.some.inj hfs).symm hne
          | name nl nc id => exact absurd (Option.some.inj hfs).symm hne
          | numConst nl nc v => exact absurd (Option.some.inj hfs).symm hne
          | attr nl nc value field => exact absurd (Option.some.inj hfs).symm hne
          | call nl nc func args => exact absurd (Option.some.inj hfs).symm hne
          | boolOp nl nc bop values => exact absurd (Option.some.inj hfs).symm hne
          | unaryOp nl nc uop uoperand => exact absurd (Option.some.inj hfs).symm hne
      | uSub => cases operand <;> exact absurd (Option.some.inj hfs).symm hne
      | uAdd => cases operand <;> exact absurd (Option.some.inj hfs).symm hne
      | invert => cases operand <;> exact absurd (Option.some.inj hfs).symm hne
    · rintro ⟨hop, cl, cc, left, right, rest, hoperand⟩
      subst hop
      subst hoperand
      exact ⟨[(l, c, SIM201 (to_source left) (to_source right))], rfl, by simp⟩
  · rintro cl cc left right rest hop hoperand
    subst hop
    subst hoperand
    rfl

/-- Witness for C2 at `not (a == b)`. -/
theorem sim201_not_eq_correct_witness :
    _get_not_equal_calls (.unaryOp 1 0 .nottOp
        (.compare 1 4 (.name 1 4 "a") [CmpOpKind.eq] [.name 1 9 "b"]))
      = some [(1, 0, SIM201 "a" "b")] :=
  (sim201_not_eq_correct 1 0 .nottOp
      (.compare 1 4 (.name 1 4 "a") [CmpOpKind.eq] [.name 1 9 "b"])).2
    1 4 (.name 1 4 "a") (.name 1 9 "b") [] rfl rfl

/-- C6: a negated chained comparison, a negated inequality, and a negated
non-comparison all yield the empty finding list — a normal result, not an
exception. -/
theorem sim201_non_matches_empty :
    (∀ l c cl cc (left : Expr) (ops : List CmpOpKind) (comparators : List Expr),
        1 < ops.length →
        _get_not_equal_calls (.unaryOp l c .nottOp (.compare cl cc left ops comparators))
          = some [])
    ∧ (∀ l c cl cc (left : Expr) (comparators : List Expr),
        _get_not_equal_calls (.unaryOp l c .nottOp
            (.compare cl cc left [CmpOpKind.notEq] comparators)) = some [])
    ∧ ∀ l c (operand : Expr),
        (∀ cl cc left ops comparators,
          operand ≠ Expr.compare cl cc left ops comparators) →
        _get_not_equal_calls (.unaryOp l c .nottOp operand) = some [] := by
  refine ⟨?_, ?_, ?_⟩
  · intro l c cl cc left ops comparators hlen
    rcases ops with _ | ⟨o, _ | ⟨o2, tl⟩⟩
    · simp at hlen
    · simp at hlen
    · cases o <;> rfl
  · intro l c cl cc left comparators
    rfl
  · intro l c operand h
    cases operand with
    | compare cl cc left ops comparators =>
        exact absurd rfl (h cl cc left ops comparators)
    | name nl nc id => rfl
    | numConst nl nc v => rfl
    | attr nl nc value field => rfl
    | call nl nc func args => rfl
    | boolOp nl nc bop values => rfl
    | unaryOp nl nc uop uoperand => rfl

/-- Witness for C6 at `not (a == b == c)`, `not (a != b)` and `not x`. -/
theorem sim201_non_matches_empty_witness :
    _get_not_equal_calls (.unaryOp 1 0 .nottOp
        (.compare 1 4 (.name 1 4 "a") [CmpOpKind.eq, CmpOpKind.eq]
          [.name 1 9 "b", .name 1 14 "c"])) = some []
    ∧ _get_not_equal_calls (.unaryOp 2 0 .nottOp
        (.compare 2 4 (.name 2 4 "a") [CmpOpKind.notEq] [.name 2 9 "b"])) = some []
    ∧ _get_not_equal_calls (.unaryOp 3 0 .nottOp (.name 3 4 "x")) = some [] :=
  ⟨sim201_non_matches_empty.1 1 0 1 4 (.name 1 4 "a")
      [CmpOpKind.eq, CmpOpKind.eq] [.name 1 9 "b", .name 1 14 "c"] (by decide),
   sim201_non_matches_empty.2.1 2 0 2 4 (.name 2 4 "a") [.name 2 9 "b"],
   sim201_non_matches_empty.2.2 3 0 (.name 3 4 "x")
     (fun cl cc left ops comparators h => Expr.noConfusion h)⟩

/-! ### Visitor lemmas -/

theorem visit_decompose (e : Expr) :
    visit e = (dispatch e).bind
      (fun here => (visitList (childrenOf e)).map (fun rest => here ++ rest)) := by
  cases e with
  | name l c id => rfl
  | numConst l c v => rfl
  | attr l c value field =>
      cases h : visit value <;>
        simp [visit, visitList, dispatch, childrenOf, h]
  | call l c func args =>
      cases hf : visit func <;> cases ha : visitList args <;>
        simp [visit, visitList, dispatch, childrenOf, hf, ha]
  | boolOp l c op values =>
      cases hv : visitList values <;>
        simp [visit, dispatch, childrenOf, hv]
  | unaryOp l c op operand =>
      cases hg : _get_not_equal_calls (.unaryOp l c op operand) <;>
        cases ho : visit operand <;>
          simp [visit, visitList, dispatch, childrenOf, hg, ho]
  | compare l c left ops comparators =>
      cases hl : visit left <;> cases hc : visitList comparators <;>
        simp [visit, visitList, dispatch, childrenOf, hl, hc]

theorem visit_attr_eq (l c : Nat) (value : Expr) (field : String) :
    visit (.attr l c value field) = visit value := rfl

theorem visit_call_eq (l c : Nat) (func : Expr) (args : List Expr) :
    visit (.call l c func args)
      = (visit func).bind (fun a => (visitList args).map (fun b => a ++ b)) := by
  cases hf : visit func <;> cases ha : visitList args <;> simp [visit, hf, ha]

theorem visit_boolOp_eq (l c : Nat) (op : BoolOpKind) (values : List Expr) :
    visit (.boolOp l c op values)
      = (visitList values).map
          (fun rest => _get_duplicated_isinstance_calls (.boolOp l c op values) ++ rest) := by
  cases hv : visitList values <;> simp [visit, hv]

theorem visit_unaryOp_eq (l c : Nat) (op : UnaryOpKind) (operand : Expr) :
    visit (.unaryOp l c op operand)
      = (_get_not_equal_calls (.unaryOp l c op operand)).bind
          (fun here => (visit operand).map (fun rest => here ++ rest)) := by
  cases hg : _get_not_equal_calls (.unaryOp l c op operand) <;>
    cases ho : visit operand <;> simp [visit, hg, ho]

theorem visit_compare_eq (l c : Nat) (left : Expr) (ops : List CmpOpKind)
    (comparators : List Expr) :
    visit (.compare l c left ops comparators)
      = (visit left).bind (fun a => (visitList comparators).map (fun b => a ++ b)) := by
  cases hl : visit left <;> cases hc : visitList comparators <;> simp [visit, hl, hc]

theorem visitList_cons_eq (e : Expr) (es : List Expr) :
    visitList (e :: es)
      = (visit e).bind (fun a => (visitList es).map (fun b => a ++ b)) := by
  cases he : visit e <;> cases hes : visitList es <;> simp [visitList, he, hes]

/-- Exhaustive shape of a SIM201 predicate result: an empty list, the
`IndexError` case (negated single-`Eq` comparison with no comparators), or a
single finding at the node's position. -/
theorem not_equal_calls_cases (l c : Nat) (op : UnaryOpKind) (operand : Expr) :
    _get_not_equal_calls (.unaryOp l c op operand) = some []
    ∨ (∃ cl cc left, op = UnaryOpKind.nottOp
        ∧ operand = Expr.compare cl cc left [CmpOpKind.eq] []
        ∧ _get_not_equal_calls (.unaryOp l c op operand) = none)
    ∨ ∃ msg, _get_not_equal_calls (.unaryOp l c op operand) = some [(l, c, msg)] := by
  cases op with
  | nottOp =>
      cases operand with
      | compare cl cc left ops comparators =>
          rcases ops with _ | ⟨o, tl⟩
          · exact Or.inl rfl
          · cases o with
            | eq =>
                rcases tl with _ | ⟨o2, tl2⟩
                · rcases comparators with _ | ⟨r, rs⟩
                  · exact Or.inr (Or.inl ⟨cl, cc, left, rfl, rfl, rfl⟩)
                  · exact Or.inr (Or.inr
                      ⟨SIM201 (to_source left) (to_source r), rfl⟩)
                · exact Or.inl rfl
            | notEq => exact Or.inl rfl
            | lt => exact Or.inl rfl
            | gt => exact Or.inl rfl
            | isOp => exact Or.inl rfl
            | inOp => exact Or.inl rfl
      | name nl nc id => exact Or.inl rfl
      | numConst nl nc v => exact Or.inl rfl
      | attr nl nc value field => exact Or.inl rfl
      | call nl nc func args => exact Or.inl rfl
      | boolOp nl nc bop values => exact Or.inl rfl
      | unaryOp nl nc uop uoperand => exact Or.inl rfl
  | uSub => cases operand <;> exact Or.inl rfl
  | uAdd => cases operand <;> exact Or.inl rfl
  | invert => cases operand <;> exact Or.inl rfl

theorem duplicated_positions (l c : Nat) (op : BoolOpKind) (values : List Expr) :
    ∀ f ∈ _get_duplicated_isinstance_calls (Expr.boolOp l c op values),
      f.1 = l ∧ f.2.1 = c := by
  intro f hf
  by_cases hop : op = BoolOpKind.bOr
  · subst hop
    rw [duplicated_isinstance_calls_eq, List.mem_map] at hf
    obtain ⟨k, hk, rfl⟩ := hf
    exact ⟨rfl, rfl⟩
  · simp [_get_duplicated_isinstance_calls, hop] at hf

theorem not_equal_positions (l c : Nat) (op : UnaryOpKind) (operand : Expr)
    (fs : List Finding) (h : _get_not_equal_calls (.unaryOp l c op operand) = some fs) :
    ∀ f ∈ fs, f.1 = l ∧ f.2.1 = c := by
  intro f hf
  rcases not_equal_calls_cases l c op operand with hc | ⟨cl, cc, left, _, _, hc⟩
    | ⟨msg, hc⟩ <;> rw [hc] at h
  · obtain rfl := (Option.some.inj h).symm
    cases hf
  · exact Option.noConfusion h
  · obtain rfl := (Option.some.inj h).symm
    obtain rfl := List.mem_singleton.mp hf
    exact ⟨rfl, rfl⟩

mutual

theorem visit_origin : ∀ (e : Expr) (fs : List Finding), visit e = some fs →
    ∀ f ∈ fs, ∃ d, d ∈ subnodes e ∧ ∃ gs, dispatch d = some gs ∧ f ∈ gs
  | .name l c id, fs, h => by
      obtain rfl := (Option.some.inj h).symm
      intro f hf
      cases hf
  | .numConst l c v, fs, h => by
      obtain rfl := (Option.some.inj h).symm
      intro f hf
      cases hf
  | .attr l c value field, fs, h => by
      intro f hf
      obtain ⟨d, hd, hgs⟩ := visit_origin value fs h f hf
      exact ⟨d, by simp [subnodes, hd], hgs⟩
  | .call l c func args, fs, h => by
      rw [visit_call_eq, Option.bind_eq_some] at h
      obtain ⟨a, ha, hmap⟩ := h
      rw [Option.map_eq_some'] at hmap
      obtain ⟨b, hb, rfl⟩ := hmap
      intro f hf
      rcases List.mem_append.mp hf with hfa | hfb
      · obtain ⟨d, hd, hgs⟩ := visit_origin func a ha f hfa
        exact ⟨d, by simp [subnodes, hd], hgs⟩
      · obtain ⟨d, hd, hgs⟩ := visitList_origin args b hb f hfb
        exact ⟨d, by simp [subnodes, hd], hgs⟩
  | .boolOp l c op values, fs, h => by
      rw [visit_boolOp_eq, Option.map_eq_some'] at h
      obtain ⟨b, hb, rfl⟩ := h
      intro f hf
      rcases List.mem_append.mp hf with hfa | hfb
      · exact ⟨.boolOp l c op values, by simp [subnodes],
          _get_duplicated_isinstance_calls (.boolOp l c op values), rfl, hfa⟩
      · obtain ⟨d, hd, hgs⟩ := visitList_origin values b hb f hfb
        exact ⟨d, by simp [subnodes, hd], hgs⟩
  | .unaryOp l c op operand, fs, h => by
      rw [visit_unaryOp_eq, Option.bind_eq_some] at h
      obtain ⟨here, hhere, hmap⟩ := h
      rw [Option.map_eq_some'] at hmap
      obtain ⟨b, hb, rfl⟩ := hmap
      intro f hf
      rcases List.mem_append.mp hf with hfa | hfb
      · exact ⟨.unaryOp l c op operand, by simp [subnodes], here, hhere, hfa⟩
      · obtain ⟨d, hd, hgs⟩ := visit_origin operand b hb f hfb
        exact ⟨d, by simp [subnodes, hd], hgs⟩
  | .compare l c left ops comparators, fs, h => by
      rw [visit_compare_eq, Option.bind_eq_some] at h
      obtain ⟨a, ha, hmap⟩ := h
      rw [Option.map_eq_some'] at hmap
      obtain ⟨b, hb, rfl⟩ := hmap
      intro f hf
      rcases List.mem_append.mp hf with hfa | hfb
      · obtain ⟨d, hd, hgs⟩ := visit_origin left a ha f hfa
        exact ⟨d, by simp [subnodes, hd], hgs⟩
      · obtain ⟨d, hd, hgs⟩ := visitList_origin comparators b hb f hfb
        exact ⟨d, by simp [subnodes, hd], hgs⟩

theorem visitList_origin : ∀ (es : List Expr) (fs : List Finding),
    visitList es = some fs →
    ∀ f ∈ fs, ∃ d, d ∈ subnodesList es ∧ ∃ gs, dispatch d = some gs ∧ f ∈ gs
  | [], fs, h => by
      obtain rfl := (Option.some.inj h).symm
      intro f hf
      cases hf
  | e :: es, fs, h => by
      rw [visitList_cons_eq, Option.bind_eq_some] at h
      obtain ⟨a, ha, hmap⟩ := h
      rw [Option.map_eq_some'] at hmap
      obtain ⟨b, hb, rfl⟩ := hmap
      intro f hf
      rcases List.mem_append.mp hf with hfa | hfb
      · obtain ⟨d, hd, hgs⟩ := visit_origin e a ha f hfa
        exact ⟨d, by simp [subnodesList, hd], hgs⟩
      · obtain ⟨d, hd, hgs⟩ := visitList_origin es b hb f hfb
        exact ⟨d, by simp [subnodesList, hd], hgs⟩

end

theorem dispatch_positions (d : Expr) (gs : List Finding) (h : dispatch d = some gs) :
    ∀ f ∈ gs, f.1 = lineno d ∧ f.2.1 = colOffset d := by
  cases d with
  | boolOp l c op values =>
      obtain rfl := (Option.some.inj h).symm
      exact duplicated_positions l c op values
  | unaryOp l c op operand => exact not_equal_positions l c op operand gs h
  | name l c id =>
      obtain rfl := (Option.some.inj h).symm
      intro f hf
      cases hf
  | numConst l c v =>
      obtain rfl := (Option.some.inj h).symm
      intro f hf
      cases hf
  | attr l c value field =>
      obtain rfl := (Option.some.inj h).symm
      intro f hf
      cases hf
  | call l c func args =>
      obtain rfl := (Option.some.inj h).symm
      intro f hf
      cases hf
  | compare l c left ops comparators =>
      obtain rfl := (Option.some.inj h).symm
      intro f hf
      cases hf

theorem not_equal_calls_isSome (l c : Nat) (op : UnaryOpKind) (operand : Expr)
    (h : wellFormed operand = true) :
    (_get_not_equal_calls (.unaryOp l c op operand)).isSome = true := by
  rcases not_equal_calls_cases l c op operand with hc | ⟨cl, cc, left, _, rfl, hc⟩
    | ⟨msg, hc⟩
  · rw [hc]; rfl
  · exfalso
    simp [wellFormed] at h
  · rw [hc]; rfl

mutual

theorem visit_isSome : ∀ e : Expr, wellFormed e = true → (visit e).isSome = true
  | .name l c id, _ => rfl
  | .numConst l c v, _ => rfl
  | .attr l c value field, h => by
      simp only [wellFormed] at h
      exact visit_isSome value h
  | .call l c func args, h => by
      simp only [wellFormed, Bool.and_eq_true] at h
      obtain ⟨a, ha⟩ := Option.isSome_iff_exists.mp (visit_isSome func h.1)
      obtain ⟨b, hb⟩ := Option.isSome_iff_exists.mp (visitList_isSome args h.2)
      simp [visit, ha, hb]
  | .boolOp l c op values, h => by
      simp only [wellFormed, Bool.and_eq_true] at h
      obtain ⟨b, hb⟩ := Option.isSome_iff_exists.mp (visitList_isSome values h.2)
      simp [visit, hb]
  | .unaryOp l c op operand, h => by
      simp only [wellFormed] at h
      obtain ⟨b, hb⟩ := Option.isSome_iff_exists.mp (visit_isSome operand h)
      obtain ⟨g, hg⟩ :=
        Option.isSome_iff_exists.mp (not_equal_calls_isSome l c op operand h)
      simp [visit, hb, hg]
  | .compare l c left ops comparators, h => by
      simp only [wellFormed, Bool.and_eq_true] at h
      obtain ⟨a, ha⟩ := Option.isSome_iff_exists.mp (visit_isSome left h.1.2)
      obtain ⟨b, hb⟩ := Option.isSome_iff_exists.mp (visitList_isSome comparators h.2)
      simp [visit, ha, hb]

theorem visitList_isSome : ∀ es : List Expr,
    wellFormedList es = true → (visitList es).isSome = true
  | [], _ => rfl
  | e :: es, h => by
      simp only [wellFormedList, Bool.and_eq_true] at h
      obtain ⟨a, ha⟩ := Option.isSome_iff_exists.mp (visit_isSome e h.1)
      obtain ⟨b, hb⟩ := Option.isSome_iff_exists.mp (visitList_isSome es h.2)
      simp [visitList, ha, hb]

end

theorem visitList_append (es1 es2 : List Expr) :
    visitList (es1 ++ es2)
      = (visitList es1).bind (fun a => (visitList es2).map (fun b => a ++ b)) := by
  induction es1 with
  | nil => cases h : visitList es2 <;> simp [visitList, h]
  | cons e es ih =>
      cases he : visit e <;> cases hes : visitList es <;>
        cases h2 : visitList es2 <;>
          simp [visitList, he, ih, hes, h2, List.append_assoc]

/-! ### Claim theorems for the visitor -/

/-- C3: the traversal is depth-first pre-order without pruning — at every node
the dispatched predicate result comes first, followed by the children's
findings in order, with the children always visited; an or-node operand of an
or-node is never counted (it is not a call), and in the nesting example both
the outer and the inner node produce their own findings, each at its own
position. -/
theorem visitor_preorder_no_pruning :
    (∀ e, visit e = (dispatch e).bind
        (fun here => (visitList (childrenOf e)).map (fun rest => here ++ rest)))
    ∧ (∀ l c op values, keyOf (.boolOp l c op values) = none)
    ∧ visit nestedOrExample
        = some [(1, 0, SIM101 "b"), (1, 1, SIM101 "a")] := by
  refine ⟨visit_decompose, fun l c op values => rfl, ?_⟩
  rfl

/-- C4: every finding of either predicate carries exactly the position of the
node the predicate ran on, and consequently every finding of a whole run
originates at some visited node whose `(lineno, col_offset)` it carries. -/
theorem findings_positions_from_trigger_node :
    (∀ l c op values, ∀ f ∈ _get_duplicated_isinstance_calls (Expr.boolOp l c op values),
        f.1 = l ∧ f.2.1 = c)
    ∧ (∀ l c op operand fs, _get_not_equal_calls (Expr.unaryOp l c op operand) = some fs →
        ∀ f ∈ fs, f.1 = l ∧ f.2.1 = c)
    ∧ ∀ e fs, visit e = some fs → ∀ f ∈ fs,
        ∃ d, d ∈ subnodes e ∧ (∃ gs, dispatch d = some gs ∧ f ∈ gs)
          ∧ f.1 = lineno d ∧ f.2.1 = colOffset d := by
  refine ⟨duplicated_positions, not_equal_positions, ?_⟩
  intro e fs h f hf
  obtain ⟨d, hd, gs, hgs, hfgs⟩ := visit_origin e fs h f hf
  exact ⟨d, hd, ⟨gs, hgs, hfgs⟩,
    (dispatch_positions d gs hgs f hfgs).1, (dispatch_positions d gs hgs f hfgs).2⟩

/-- Witness for C4: the finding of `isinstance(a, int) or isinstance(a, str)`
at position (5, 7) carries exactly that position. -/
theorem findings_positions_from_trigger_node_witness :
    ((5, 7, SIM101 "a") : Finding).1 = 5 ∧ ((5, 7, SIM101 "a") : Finding).2.1 = 7 :=
  findings_positions_from_trigger_node.1 5 7 .bOr
    [isin 5 7 "a" "int", isin 5 29 "a" "str"] (5, 7, SIM101 "a") (by decide)

/-- C9: both predicates are total on well-formed nodes (no exception — the
traversal of a well-formed tree always completes), and visiting the
concatenation of two sibling lists splits into the two visits — a non-match or
finding at one node never prevents evaluation at siblings. -/
theorem predicates_total_no_abort :
    (∀ l c op operand, wellFormed (Expr.unaryOp l c op operand) = true →
        (_get_not_equal_calls (.unaryOp l c op operand)).isSome = true)
    ∧ (∀ e, wellFormed e = true → (visit e).isSome = true)
    ∧ ∀ es1 es2, visitList (es1 ++ es2)
        = (visitList es1).bind (fun a => (visitList es2).map (fun b => a ++ b)) :=
  ⟨fun l c op operand h => not_equal_calls_isSome l c op operand h,
   visit_isSome, visitList_append⟩

/-- Witness for C9 at `not x` and at a two-operand or-node. -/
theorem predicates_total_no_abort_witness :
    (_get_not_equal_calls (.unaryOp 1 0 .nottOp (.name 1 4 "x"))).isSome = true
    ∧ (visit (.boolOp 1 0 .bOr [isin 1 0 "a" "int", isin 1 22 "a" "str"])).isSome = true :=
  ⟨predicates_total_no_abort.1 1 0 .nottOp (.name 1 4 "x") (by decide),
   predicates_total_no_abort.2.1 (.boolOp 1 0 .bOr [isin 1 0 "a" "int", isin 1 22 "a" "str"])
     (by decide)⟩

end FlakeSimplify
